import Mathlib

/-!
# Verification of the Open-Agent-FireCrawl workflow normalization and engine spec

Shallow embedding of the repository's `app/api/prompt-workflow/route.ts`
normalization pass (both the main variant and the older variant kept in the
repo), plus spec-modelled definitions for the workflow-graph validator, the
`while`-node stepping rule and the template variable resolver (whose
implementations are not part of the provided sources).

JavaScript string operations (`startsWith`, `split`, `parseInt`, template
rendering of numbers) are modelled directly on `String.data` character lists
so that all definitions compute by kernel reduction.
-/

namespace OAB

/-! ## JavaScript-value helpers -/

/-- JS truthiness of an optional string field: `undefined`/missing and the
empty string are falsy, every other string is truthy. -/
def jsTruthy : Option String → Bool
  | none => false
  | some s => !s.data.isEmpty

/-- JS `a || b` on optional string fields: yields `a` when `a` is truthy,
otherwise `b`. -/
def jsOr (a b : Option String) : Option String :=
  if jsTruthy a then a else b

/-- JS `String.prototype.startsWith`: `pre.data` is a list prefix of `s.data`. -/
def jsStartsWith (s pre : String) : Bool :=
  pre.data.isPrefixOf s.data

/-- JS `String.prototype.split("_")` on the character list: split at every
underscore, keeping empty segments (so `"node_".split("_") = ["node", ""]`). -/
def splitUnderscore : List Char → List (List Char)
  | [] => [[]]
  | c :: rest =>
    if c = '_' then [] :: splitUnderscore rest
    else
      match splitUnderscore rest with
      | [] => [[c]]
      | g :: gs => (c :: g) :: gs

/-- Numeric value of a list of decimal digit characters, most significant
digit first. -/
def digitsVal (ds : List Char) : Nat :=
  ds.foldl (fun a c => a * 10 + (c.toNat - '0'.toNat)) 0

/-- JS `parseInt(s, 10)`: skip leading whitespace, read an optional sign and
then the longest prefix of decimal digits; `none` models `NaN`. -/
def jsParseInt (s : String) : Option Int :=
  let core : List Char → Option Nat := fun l =>
    let ds := l.takeWhile Char.isDigit
    if ds.isEmpty then none else some (digitsVal ds)
  match s.data.dropWhile Char.isWhitespace with
  | '-' :: rest => (core rest).map (fun n => -(n : Int))
  | '+' :: rest => (core rest).map (fun n => (n : Int))
  | l => (core l).map (fun n => (n : Int))

/-- Decimal digits of `n`, least significant first, with explicit fuel so the
definition is structural (fuel `n + 1` is always sufficient). -/
def decDigitsRev : Nat → Nat → List Nat
  | 0, _ => []
  | f + 1, n => n % 10 :: (if n / 10 = 0 then [] else decDigitsRev f (n / 10))

/-- Rendering of a natural number in decimal, as JS template literals do. -/
def natToDec (n : Nat) : String :=
  ⟨((decDigitsRev (n + 1) n).map Nat.digitChar).reverse⟩

/-- Rendering of a JS integer in decimal (`` `${c}` `` for an integral
number `c`). -/
def intToDec (i : Int) : String :=
  if i < 0 then "-" ++ natToDec (-i).toNat else natToDec i.toNat

/-! ## Workflow document data model

A parsed workflow document as the route handler sees it after
`JSON.parse`: nodes and edges with optional string fields.  Fields whose
values the normalization pass never inspects (the rest of `node.data`, the
rest of the node object, the rest of an edge object) are carried as opaque
key/value lists so that preservation can be stated. -/

structure NodeData where
  nodeType : Option String
  nodeName : Option String
  name : Option String
  label : Option String
  extra : List (String × String)
deriving DecidableEq, Repr

structure RawNode where
  id : Option String
  type : Option String
  position : Option (Int × Int)
  data : Option NodeData
  extra : List (String × String)
deriving DecidableEq, Repr

structure RawEdge where
  id : Option String
  source : Option String
  target : Option String
  label : Option String
  sourceHandle : Option String
  targetHandle : Option String
  extra : List (String × String)
deriving DecidableEq, Repr

structure Workflow where
  nodes : List RawNode
  edges : List RawEdge
deriving DecidableEq, Repr

/-! ## The normalization pass of `app/api/prompt-workflow/route.ts` -/

/-- State threaded through the node loop: the fresh-id counter
`currentNodeIdCounter` and the original-to-final id map `nodeIdMap`. -/
structure NormState where
  counter : Int
  idMap : String → Option String

/-- `!originalId || !originalId.startsWith('node_')` decides regeneration;
`keepId` is the complementary condition. -/
def keepId (i : Option String) : Bool :=
  jsTruthy i && jsStartsWith (i.getD "") "node_"

/-- `parseInt(originalId.split('_')[1], 10)` from the kept-id branch. -/
def parseKeptIdNum (i : String) : Option Int :=
  jsParseInt ⟨((splitUnderscore i.data).getD 1 [])⟩

/-- Uppercase the first character of a character list. -/
def capList : List Char → List Char
  | [] => []
  | c :: cs => c.toUpper :: cs

/-- JS `s.charAt(0).toUpperCase() + s.slice(1)` (ASCII uppercasing). -/
def jsCapitalize (s : String) : String :=
  ⟨capList s.data⟩

/-- One iteration of the `workflowData.nodes.map` callback in
`route.ts` (lines 114–152): id regeneration/remapping, position default,
type default, and the `data` rebuild that preserves existing fields and
fills `nodeType`, `nodeName` and `label`. -/
def processNode (st : NormState) (index : Nat) (node : RawNode) : RawNode × NormState :=
  let idStep : String × NormState :=
    if keepId node.id then
      let st' :=
        match parseKeptIdNum (node.id.getD "") with
        | some k => { st with counter := max st.counter (k + 1) }
        | none => st
      (node.id.getD "", st')
    else
      let fid := "node_" ++ intToDec st.counter
      let m :=
        if jsTruthy node.id then
          fun k => if k = node.id.getD "" then some fid else st.idMap k
        else st.idMap
      (fid, { counter := st.counter + 1, idMap := m })
  let finalId := idStep.1
  let st' := idStep.2
  let position :=
    match node.position with
    | some p => some p
    | none => some ((250 + 300 * (index : Int), 250) : Int × Int)
  let dNodeType := node.data.bind NodeData.nodeType
  let dNodeName := node.data.bind NodeData.nodeName
  let dName := node.data.bind NodeData.name
  let dLabel := node.data.bind NodeData.label
  let typeStr := (jsOr node.type (jsOr dNodeType (some "agent"))).getD ""
  let defaultNodeName := jsCapitalize typeStr
  let newData : NodeData :=
    { nodeType := jsOr dNodeType (some typeStr)
      nodeName := jsOr dNodeName (jsOr dName (some defaultNodeName))
      name := dName
      label := jsOr dLabel (jsOr dNodeName (jsOr dName (some defaultNodeName)))
      extra := (node.data.map NodeData.extra).getD [] }
  ({ id := some finalId
     type := some typeStr
     position := position
     data := some newData
     extra := node.extra }, st')

/-- The node loop, threading the counter, the id map and the array index. -/
def processNodesGo (st : NormState) (index : Nat) : List RawNode → List RawNode × NormState
  | [] => ([], st)
  | n :: ns =>
    let p := processNode st index n
    let q := processNodesGo p.2 (index + 1) ns
    (p.1 :: q.1, q.2)

def initState : NormState :=
  { counter := 1, idMap := fun _ => none }

/-- `processedNodes` of the route handler. -/
def processedNodesOf (w : Workflow) : List RawNode :=
  (processNodesGo initState 0 w.nodes).1

/-- The final `nodeIdMap` after the node loop. -/
def nodeIdMapOf (w : Workflow) : String → Option String :=
  (processNodesGo initState 0 w.nodes).2.idMap

/-- `validNodeIds`: ids of the processed nodes. -/
def validNodeIds (ns : List RawNode) : List String :=
  ns.map fun n => n.id.getD ""

def processedIdsOf (w : Workflow) : List String :=
  validNodeIds (processedNodesOf w)

/-- `nodeIdMap.get(x) || x` followed by use as a string. -/
def remapId (m : String → Option String) (x : String) : String :=
  (jsOr (m x) (some x)).getD ""

/-- One iteration of the edge `.map` callback (lines 159–187): skip edges
with falsy endpoints, remap endpoints through `nodeIdMap`, drop edges whose
remapped endpoints are not processed node ids, and rebuild the edge object
with only `id`/`source`/`target` and the truthy optional fields. -/
def processEdge (m : String → Option String) (ids : List String) (e : RawEdge) : Option RawEdge :=
  if !(jsTruthy e.source && jsTruthy e.target) then none
  else if !(ids.contains (remapId m (e.source.getD ""))) then none
  else if !(ids.contains (remapId m (e.target.getD ""))) then none
  else
    some
      { id := jsOr e.id (some ("edge-" ++ remapId m (e.source.getD "") ++ "-"
          ++ remapId m (e.target.getD "")))
        source := some (remapId m (e.source.getD ""))
        target := some (remapId m (e.target.getD ""))
        label := if jsTruthy e.label then e.label else none
        sourceHandle := if jsTruthy e.sourceHandle then e.sourceHandle else none
        targetHandle := if jsTruthy e.targetHandle then e.targetHandle else none
        extra := [] }

/-- The whole normalization pass of `route.ts` (lines 110–198): processed
nodes plus the filtered, remapped edges. -/
def normalizeWorkflow (w : Workflow) : Workflow :=
  { nodes := processedNodesOf w
    edges := w.edges.filterMap (processEdge (nodeIdMapOf w) (processedIdsOf w)) }

/-! ## Response shape of the route handler (lines 103–108 and 195–198)

After `JSON.parse`, `workflowData.nodes` and `workflowData.edges` are each
either an array (modelled `some`) or missing/non-array (modelled `none`,
the `Array.isArray` test failing). -/

structure ParsedDoc where
  nodes : Option (List RawNode)
  edges : Option (List RawEdge)

inductive ApiResponse
  | success (nodes : List RawNode) (edges : List RawEdge)
  | error (status : Nat) (message : String)
deriving DecidableEq

/-- The route handler from the `Array.isArray` guard onwards: a 500 error
when `nodes` or `edges` is not an array, otherwise the normalized document. -/
def handleWorkflowData (d : ParsedDoc) : ApiResponse :=
  match d.nodes, d.edges with
  | some ns, some es =>
    let w := normalizeWorkflow { nodes := ns, edges := es }
    .success w.nodes w.edges
  | _, _ => .error 500 "Invalid workflow format: missing nodes or edges."

/-! ## Entry guard of the route handler (lines 16–30) -/

/-- A JS value as far as the `prompt` guard distinguishes values. -/
inductive JsVal
  | vUndefined
  | vNull
  | vBool (b : Bool)
  | vNum (n : Int)
  | vStr (s : String)
  | vObj
deriving DecidableEq

def JsVal.truthy : JsVal → Bool
  | .vUndefined => false
  | .vNull => false
  | .vBool b => b
  | .vNum n => n != 0
  | .vStr s => !s.data.isEmpty
  | .vObj => true

def JsVal.isString : JsVal → Bool
  | .vStr _ => true
  | _ => false

inductive RouteStage
  | badRequest (status : Nat) (message : String)
  | keyMissing (status : Nat) (message : String)
  | callModel
deriving DecidableEq

/-- The two early returns before the Anthropic client is used:
`if (!prompt || typeof prompt !== 'string')` then 400, then the API-key
check, then (and only then) the model call. -/
def routeEntry (prompt : JsVal) (hasApiKey : Bool) : RouteStage :=
  if !(prompt.truthy && prompt.isString) then
    .badRequest 400 "Prompt is required"
  else if !hasApiKey then
    .keyMissing 500
      "Anthropic API key not configured. Please set ANTHROPIC_API_KEY in environment variables."
  else .callModel

/-! ## The older normalization pass of `src/unnamed/part_001` (lines 123–157)

Same id regeneration and counter, but: no `nodeIdMap`, `data` rebuilt with
only `nodeType` and `nodeName` (other data fields dropped, no `label`),
edges neither remapped nor filtered (an edge with a falsy endpoint throws),
and edges returned with all their original fields. -/

def processNode2 (counter : Int) (index : Nat) (node : RawNode) : RawNode × Int :=
  let idStep : String × Int :=
    if keepId node.id then
      let c' :=
        match parseKeptIdNum (node.id.getD "") with
        | some k => max counter (k + 1)
        | none => counter
      (node.id.getD "", c')
    else ("node_" ++ intToDec counter, counter + 1)
  let position :=
    match node.position with
    | some p => some p
    | none => some ((250 + 300 * (index : Int), 250) : Int × Int)
  let dNodeType := node.data.bind NodeData.nodeType
  let dNodeName := node.data.bind NodeData.nodeName
  let dName := node.data.bind NodeData.name
  let typeStr := (jsOr node.type (jsOr dNodeType (some "agent"))).getD ""
  let newData : NodeData :=
    { nodeType := jsOr dNodeType (some typeStr)
      nodeName := jsOr dNodeName (jsOr dName (some (jsCapitalize typeStr)))
      name := none
      label := none
      extra := [] }
  ({ id := some idStep.1
     type := some typeStr
     position := position
     data := some newData
     extra := node.extra }, idStep.2)

def processNodes2Go (counter : Int) (index : Nat) : List RawNode → List RawNode × Int
  | [] => ([], counter)
  | n :: ns =>
    let p := processNode2 counter index n
    let q := processNodes2Go p.2 (index + 1) ns
    (p.1 :: q.1, q.2)

def processedNodes2Of (w : Workflow) : List RawNode :=
  (processNodes2Go 1 0 w.nodes).1

/-- The edge loop of `part_001`: mutates `edge.id` when falsy and keeps the
edge otherwise unchanged; a falsy `source` or `target` throws. -/
def processEdges2 : List RawEdge → Except String (List RawEdge)
  | [] => .ok []
  | e :: es =>
    if !(jsTruthy e.source && jsTruthy e.target) then
      .error "Invalid edge missing source/target"
    else
      match processEdges2 es with
      | .error msg => .error msg
      | .ok rest =>
        .ok ({ e with
                id := jsOr e.id
                  (some ("edge-" ++ e.source.getD "" ++ "-" ++ e.target.getD "")) } :: rest)

/-- The whole `part_001` normalization pass; a thrown edge error surfaces as
the catch-all 500 response. -/
def normalizeWorkflow2 (w : Workflow) : Except String Workflow :=
  match processEdges2 w.edges with
  | .error msg => .error msg
  | .ok es => .ok { nodes := processedNodes2Of w, edges := es }

instance : DecidableEq (Except String Workflow) := fun a b =>
  match a, b with
  | .ok x, .ok y =>
    if h : x = y then isTrue (by rw [h]) else isFalse (fun hc => by cases hc; exact h rfl)
  | .error x, .error y =>
    if h : x = y then isTrue (by rw [h]) else isFalse (fun hc => by cases hc; exact h rfl)
  | .ok _, .error _ => isFalse (fun hc => by cases hc)
  | .error _, .ok _ => isFalse (fun hc => by cases hc)

/-! ## Graph model and validator

Modelled from the spec: the engine's graph validator is not part of the
provided sources (only the normalization route is), so `validate` is built
from the contract in spec §4.1: single start, at least one end, all edge
endpoints resolve, no node unreachable from start, cycles only through
`while` nodes, `if-else` nodes with exactly two outgoing edges distinguished
by label, `while` nodes with exactly two outgoing edges (body and exit) and
a positive integer `maxIterations` (the hard ceiling is taken as a clamp,
the implementer's choice the spec allows, so it is not a validation
failure).  Reachability and cycles are phrased with simple (duplicate-free)
paths, which is equivalent to phrasing them with arbitrary walks. -/

inductive NodeKind
  | start
  | endNode
  | agent
  | mcp
  | ifElse
  | whileLoop
  | userApproval
  | transform
deriving DecidableEq, Repr

structure GNode where
  id : String
  kind : NodeKind
  maxIterations : Option Int
deriving DecidableEq, Repr

structure GEdge where
  id : String
  source : String
  target : String
  label : Option String
deriving DecidableEq, Repr

structure Graph where
  nodes : List GNode
  edges : List GEdge
deriving DecidableEq, Repr

structure ValidationError where
  reason : String
  nodeId : Option String
deriving DecidableEq, Repr

inductive ValidateResult
  | ok
  | error (e : ValidationError)
deriving DecidableEq, Repr

/-- Exactly one node of kind `start`. -/
def UniqueStart (g : Graph) : Prop :=
  g.nodes.countP (fun n => n.kind == NodeKind.start) = 1

/-- At least one node of kind `end`. -/
def HasEnd (g : Graph) : Prop :=
  ∃ n ∈ g.nodes, n.kind = NodeKind.endNode

/-- Every edge's endpoints reference existing node ids. -/
def EdgesResolve (g : Graph) : Prop :=
  ∀ e ∈ g.edges, (∃ n ∈ g.nodes, n.id = e.source) ∧ ∃ n ∈ g.nodes, n.id = e.target

/-- There is an edge from id `a` to id `b`. -/
def EdgeStep (g : Graph) (a b : String) : Prop :=
  ∃ e ∈ g.edges, e.source = a ∧ e.target = b

/-- Id `a` belongs to a `while` node. -/
def Whileish (g : Graph) (a : String) : Prop :=
  ∃ n ∈ g.nodes, n.id = a ∧ n.kind = NodeKind.whileLoop

instance instDecidableUniqueStart (g : Graph) : Decidable (UniqueStart g) :=
  inferInstanceAs (Decidable (g.nodes.countP (fun n => n.kind == NodeKind.start) = 1))

instance instDecidableHasEnd (g : Graph) : Decidable (HasEnd g) :=
  inferInstanceAs (Decidable (∃ n ∈ g.nodes, n.kind = NodeKind.endNode))

instance instDecidableEdgesResolve (g : Graph) : Decidable (EdgesResolve g) :=
  inferInstanceAs (Decidable (∀ e ∈ g.edges,
    (∃ n ∈ g.nodes, n.id = e.source) ∧ ∃ n ∈ g.nodes, n.id = e.target))

instance instDecidableEdgeStep (g : Graph) : DecidableRel (EdgeStep g) := fun a b =>
  inferInstanceAs (Decidable (∃ e ∈ g.edges, e.source = a ∧ e.target = b))

instance instDecidableWhileish (g : Graph) (a : String) : Decidable (Whileish g a) :=
  inferInstanceAs (Decidable (∃ n ∈ g.nodes, n.id = a ∧ n.kind = NodeKind.whileLoop))

/-- A kernel-computable decision procedure for `List.Chain'` (the Mathlib
instance is tactic-defined and does not reduce). -/
def decChain' {r : String → String → Prop} (d : DecidableRel r) :
    (l : List String) → Decidable (l.Chain' r)
  | [] => isTrue trivial
  | [_] => isTrue List.Chain.nil
  | a :: b :: l =>
    have : Decidable (List.Chain' r (b :: l)) := decChain' d (b :: l)
    decidable_of_iff (r a b ∧ List.Chain' r (b :: l)) List.chain'_cons.symm

instance instDecidableChainEdgeStep (g : Graph) (l : List String) :
    Decidable (l.Chain' (EdgeStep g)) :=
  decChain' (instDecidableEdgeStep g) l

/-- A simple cycle: a nonempty duplicate-free list of ids chained by edges,
with an edge from the last id back to the first. -/
def IsCycle (g : Graph) : List String → Prop
  | [] => False
  | a :: rest =>
    (a :: rest).Nodup ∧ (a :: rest).Chain' (EdgeStep g) ∧
      EdgeStep g ((a :: rest).getLast (List.cons_ne_nil a rest)) a

instance instDecidableIsCycle (g : Graph) : (l : List String) → Decidable (IsCycle g l)
  | [] => isFalse fun h => h
  | a :: rest =>
    inferInstanceAs (Decidable ((a :: rest).Nodup ∧ (a :: rest).Chain' (EdgeStep g) ∧
      EdgeStep g ((a :: rest).getLast (List.cons_ne_nil a rest)) a))

/-- Every cycle passes through a `while` node. -/
def CyclesThroughWhile (g : Graph) : Prop :=
  ∀ l, IsCycle g l → ∃ a ∈ l, Whileish g a

/-- A simple path from `a` to `b`: nonempty, starts at `a`, ends at `b`,
duplicate-free, chained by edges. -/
def IsPath (g : Graph) (a b : String) : List String → Prop
  | [] => False
  | x :: rest =>
    x = a ∧ (x :: rest).getLast (List.cons_ne_nil x rest) = b ∧
      (x :: rest).Nodup ∧ (x :: rest).Chain' (EdgeStep g)

instance instDecidableIsPath (g : Graph) (a b : String) :
    (l : List String) → Decidable (IsPath g a b l)
  | [] => isFalse fun h => h
  | x :: rest =>
    inferInstanceAs (Decidable (x = a ∧ (x :: rest).getLast (List.cons_ne_nil x rest) = b ∧
      (x :: rest).Nodup ∧ (x :: rest).Chain' (EdgeStep g)))

/-- `b` is reachable from `a` along edges. -/
def Reaches (g : Graph) (a b : String) : Prop :=
  ∃ l, IsPath g a b l

/-- Every node is reachable from the start node. -/
def AllReachable (g : Graph) : Prop :=
  ∀ s ∈ g.nodes, s.kind = NodeKind.start → ∀ n ∈ g.nodes, Reaches g s.id n.id

/-- Outgoing edges of the node with id `i`. -/
def outEdges (g : Graph) (i : String) : List GEdge :=
  g.edges.filter fun e => e.source == i

/-- Each `if-else` node has exactly two outgoing edges distinguished by
label. -/
def IfElseOK (g : Graph) : Prop :=
  ∀ n ∈ g.nodes, n.kind = NodeKind.ifElse →
    (outEdges g n.id).length = 2 ∧ ((outEdges g n.id).map GEdge.label).Nodup

/-- Each `while` node has exactly two outgoing edges (body and exit) and a
positive integer `maxIterations` (`getD 0` sends a missing value to `0`,
which is rejected). -/
def WhileOK (g : Graph) : Prop :=
  ∀ n ∈ g.nodes, n.kind = NodeKind.whileLoop →
    (outEdges g n.id).length = 2 ∧ 0 < n.maxIterations.getD 0

/-! Decidability of reachability and the cycle condition, by enumerating
candidate duplicate-free lists over the edge sources. -/

/-- All duplicate-free lists over `u` arise as permutations of sublists of
`u.dedup`. -/
theorem mem_sublists_permutations {α} [DecidableEq α] {l u : List α}
    (hn : l.Nodup) (hsub : l ⊆ u) :
    l ∈ (u.dedup.sublists).flatMap List.permutations' := by
  have h1 : l ⊆ u.dedup := fun x hx => List.mem_dedup.2 (hsub hx)
  obtain ⟨t, htl, hts⟩ := hn.subperm h1
  exact List.mem_flatMap.2 ⟨t, List.mem_sublists.2 hts, List.mem_permutations'.2 htl.symm⟩

/-- In a chained list, every element is the last one or has an outgoing
step. -/
theorem chain'_mem_last_or_step {α} {r : α → α → Prop} :
    ∀ {l : List α}, l.Chain' r → ∀ {x}, x ∈ l → ∀ {z}, l.getLast? = some z →
      x = z ∨ ∃ y, r x y
  | [], _, _, hx, _, _ => absurd hx (List.not_mem_nil _)
  | [a], _, x, hx, z, hz => by
    simp only [List.mem_singleton] at hx
    simp only [List.getLast?_singleton, Option.some.injEq] at hz
    exact Or.inl (hx.trans hz)
  | a :: b :: t, h, x, hx, z, hz => by
    rw [List.chain'_cons] at h
    rcases List.mem_cons.1 hx with rfl | hx'
    · exact Or.inr ⟨b, h.1⟩
    · exact chain'_mem_last_or_step h.2 hx' (by rwa [List.getLast?_cons_cons] at hz)

def edgeSources (g : Graph) : List String :=
  g.edges.map GEdge.source

theorem edgeStep_mem_sources {g : Graph} {x y : String} (h : EdgeStep g x y) :
    x ∈ edgeSources g := by
  obtain ⟨e, he, hs, _⟩ := h
  exact List.mem_map.2 ⟨e, he, hs⟩

/-- Every simple cycle lives inside the candidate enumeration. -/
theorem isCycle_mem_candidates {g : Graph} {l : List String} (h : IsCycle g l) :
    l ∈ ((edgeSources g).dedup.sublists).flatMap List.permutations' := by
  match l, h with
  | a :: rest, ⟨hnd, hch, hcl⟩ =>
    refine mem_sublists_permutations hnd fun x hx => ?_
    have hlast : (a :: rest).getLast? = some ((a :: rest).getLast (List.cons_ne_nil a rest)) :=
      List.getLast?_eq_getLast _ _
    rcases chain'_mem_last_or_step hch hx hlast with rfl | ⟨y, hy⟩
    · exact edgeStep_mem_sources hcl
    · exact edgeStep_mem_sources hy

instance instDecidableCyclesThroughWhile (g : Graph) : Decidable (CyclesThroughWhile g) :=
  decidable_of_iff
    (∀ l ∈ ((edgeSources g).dedup.sublists).flatMap List.permutations',
      IsCycle g l → ∃ a ∈ l, Whileish g a)
    ⟨fun h l hl => h l (isCycle_mem_candidates hl) hl, fun h l _ hl => h l hl⟩

/-- Every simple path to `b` lives inside the candidate enumeration over
`b` and the edge sources. -/
theorem isPath_mem_candidates {g : Graph} {a b : String} {l : List String}
    (h : IsPath g a b l) :
    l ∈ ((b :: edgeSources g).dedup.sublists).flatMap List.permutations' := by
  match l, h with
  | x :: rest, ⟨_, hlast, hnd, hch⟩ =>
    refine mem_sublists_permutations hnd fun c hc => ?_
    have hlast? : (x :: rest).getLast? = some ((x :: rest).getLast (List.cons_ne_nil x rest)) :=
      List.getLast?_eq_getLast _ _
    rcases chain'_mem_last_or_step hch hc hlast? with rfl | ⟨y, hy⟩
    · rw [hlast]; exact List.mem_cons_self b _
    · exact List.mem_cons_of_mem b (edgeStep_mem_sources hy)

instance instDecidableReaches (g : Graph) (a b : String) : Decidable (Reaches g a b) :=
  decidable_of_iff
    (∃ l ∈ ((b :: edgeSources g).dedup.sublists).flatMap List.permutations', IsPath g a b l)
    ⟨fun ⟨l, _, hp⟩ => ⟨l, hp⟩, fun ⟨l, hp⟩ => ⟨l, isPath_mem_candidates hp, hp⟩⟩

instance instDecidableAllReachable (g : Graph) : Decidable (AllReachable g) :=
  inferInstanceAs (Decidable (∀ s ∈ g.nodes, s.kind = NodeKind.start →
    ∀ n ∈ g.nodes, Reaches g s.id n.id))

instance instDecidableIfElseOK (g : Graph) : Decidable (IfElseOK g) :=
  inferInstanceAs (Decidable (∀ n ∈ g.nodes, n.kind = NodeKind.ifElse →
    (outEdges g n.id).length = 2 ∧ ((outEdges g n.id).map GEdge.label).Nodup))

instance instDecidableWhileOK (g : Graph) : Decidable (WhileOK g) :=
  inferInstanceAs (Decidable (∀ n ∈ g.nodes, n.kind = NodeKind.whileLoop →
    (outEdges g n.id).length = 2 ∧ 0 < n.maxIterations.getD 0))

/-- Modelled from the spec: `validate(graph) -> ok | ValidationError` with
the checks of spec §4.1, run in sequence. -/
def validate (g : Graph) : ValidateResult :=
  if ¬ UniqueStart g then
    .error ⟨"workflow must have exactly one start node", none⟩
  else if ¬ HasEnd g then
    .error ⟨"workflow must have at least one end node", none⟩
  else if ¬ EdgesResolve g then
    .error ⟨"every edge endpoint must reference an existing node", none⟩
  else if ¬ AllReachable g then
    .error ⟨"every node must be reachable from the start node", none⟩
  else if ¬ CyclesThroughWhile g then
    .error ⟨"cycles may only pass through while nodes", none⟩
  else if ¬ IfElseOK g then
    .error ⟨"if-else nodes need two outgoing edges with distinct labels", none⟩
  else if ¬ WhileOK g then
    .error ⟨"while nodes need body and exit edges and a positive maxIterations", none⟩
  else .ok

/-! ## While-node stepping

Modelled from the spec: the engine's `while` dispatch (spec §4.5) is not in
the provided sources.  Iteration counters are 1-based; the condition is
evaluated with the current counter; the body edge (`true` entry in the
trace) is taken exactly when the condition holds and the counter has not
passed `maxIterations`, otherwise the exit edge (final `false` entry) is
taken.  The fuel argument `maxIterations + 1` always suffices, so the
fuel-exhausted branch is never reached from `whileTrace`. -/

def whileTraceGo (cond : Nat → Bool) (maxIterations : Nat) : Nat → Nat → List Bool
  | _, 0 => [false]
  | counter, fuel + 1 =>
    if cond counter ∧ counter ≤ maxIterations then
      true :: whileTraceGo cond maxIterations (counter + 1) fuel
    else [false]

/-- The sequence of edge choices a `while` node makes: `true` per body
entry, ending with the single `false` exit. -/
def whileTrace (cond : Nat → Bool) (maxIterations : Nat) : List Bool :=
  whileTraceGo cond maxIterations 1 (maxIterations + 1)

/-! ## Variable resolver

Modelled from the spec: the `resolve(template, ctx)` of spec §4.2 is not in
the provided sources.  Every `{{expr}}` occurrence is substituted:
`input.<name>` is looked up in `ctx.inputs` (missing names substitute the
empty string and record a warning), `lastOutput` is looked up in
`ctx.lastOutput` (absent substitutes the empty string), any other
expression is left verbatim.  Substitution is textual and non-recursive;
the function is total, so it never throws. -/

structure ResolveCtx where
  inputs : List (String × String)
  lastOutput : Option String

def lookupInput (inputs : List (String × String)) (k : String) : Option String :=
  (inputs.find? fun p => p.1 == k).map Prod.snd

/-- Split at the first `}}`: the characters before it and those after. -/
def findCloseAux : List Char → Option (List Char × List Char)
  | [] => none
  | c :: rest =>
    if c = '}' ∧ rest.head? = some '}' then some ([], rest.tail)
    else (findCloseAux rest).map fun p => (c :: p.1, p.2)

/-- Substitute one template expression; `none` means the expression is
outside the whitelist grammar and stays verbatim. -/
def substExpr (ctx : ResolveCtx) (expr : List Char) : Option (List Char × List String) :=
  if expr = "lastOutput".data then some ((ctx.lastOutput.getD "").data, [])
  else if "input.".data.isPrefixOf expr then
    let name : String := ⟨expr.drop 6⟩
    match lookupInput ctx.inputs name with
    | some v => some (v.data, [])
    | none => some ([], ["Unresolved input variable: " ++ name])
  else none

def resolveGo (ctx : ResolveCtx) : Nat → List Char → List Char × List String
  | 0, cs => (cs, [])
  | _ + 1, [] => ([], [])
  | fuel + 1, c :: rest =>
    if c = '{' ∧ rest.head? = some '{' then
      match findCloseAux rest.tail with
      | none => (c :: rest, [])
      | some (expr, after) =>
        let tail := resolveGo ctx fuel after
        match substExpr ctx expr with
        | some (repl, ws) => (repl ++ tail.1, ws ++ tail.2)
        | none => ('{' :: '{' :: (expr ++ '}' :: '}' :: tail.1), tail.2)
    else
      let t := resolveGo ctx fuel rest
      (c :: t.1, t.2)

/-- `resolve(template, ctx)`: the resolved text and the recorded warnings. -/
def resolve (template : String) (ctx : ResolveCtx) : String × List String :=
  (⟨(resolveGo ctx template.data.length template.data).1⟩,
    (resolveGo ctx template.data.length template.data).2)


/-! ## Basic lemmas about the JS helpers -/

theorem jsTruthy_some {s : String} : jsTruthy (some s) = true ↔ s.data ≠ [] := by
  simp [jsTruthy]

theorem jsOr_of_truthy {a : Option String} (b : Option String) (h : jsTruthy a = true) :
    jsOr a b = a := by
  simp [jsOr, h]

theorem jsOr_of_falsy {a : Option String} (b : Option String) (h : jsTruthy a = false) :
    jsOr a b = b := by
  simp [jsOr, h]

theorem jsTruthy_jsOr {a b : Option String} (h : jsTruthy b = true) :
    jsTruthy (jsOr a b) = true := by
  rw [jsOr]
  cases ha : jsTruthy a with
  | true => simp [ha]
  | false => simpa [ha]

theorem isPrefixOf_append_self : ∀ (p t : List Char), p.isPrefixOf (p ++ t) = true
  | [], _ => by simp
  | a :: as, t => by
    simp [List.cons_append, List.isPrefixOf_cons₂, isPrefixOf_append_self as t]

/-! ## While-node stepping lemmas -/

theorem whileTraceGo_count (cond : Nat → Bool) (N : Nat) :
    ∀ (fuel counter : Nat), (whileTraceGo cond N counter fuel).count true ≤ N + 1 - counter := by
  intro fuel
  induction fuel with
  | zero => intro counter; simp [whileTraceGo]
  | succ f ih =>
    intro counter
    by_cases h : cond counter = true ∧ counter ≤ N
    · have := ih (counter + 1)
      simp only [whileTraceGo, if_pos h, List.count_cons, beq_self_eq_true, if_true]
      omega
    · simp [whileTraceGo, if_neg h]

theorem whileTraceGo_allTrue (cond : Nat → Bool) (N : Nat) (h : ∀ k, cond k = true) :
    ∀ (fuel counter : Nat), N + 2 ≤ counter + fuel →
      whileTraceGo cond N counter fuel = List.replicate (N + 1 - counter) true ++ [false] := by
  intro fuel
  induction fuel with
  | zero =>
    intro counter hc
    have : N + 1 - counter = 0 := by omega
    simp [whileTraceGo, this]
  | succ f ih =>
    intro counter hc
    by_cases hcnt : counter ≤ N
    · have hrep : N + 1 - counter = (N + 1 - (counter + 1)) + 1 := by omega
      rw [whileTraceGo, if_pos ⟨h counter, hcnt⟩, ih (counter + 1) (by omega), hrep,
        List.replicate_succ, List.cons_append]
    · have hif : ¬ (cond counter = true ∧ counter ≤ N) := fun hx => hcnt hx.2
      have : N + 1 - counter = 0 := by omega
      simp [whileTraceGo, if_neg hif, this]

/-! ## Claim theorems (easy group) -/

/-- **C5**: a `while` node with `maxIterations = N` and an always-true
condition takes the body edge exactly `N` times and then the exit edge;
and for every condition the body is never taken more than `N` times
(loop-safety invariant). -/
theorem while_loop_safety (cond : Nat → Bool) (N : Nat) (h : ∀ k, cond k = true) :
    whileTrace cond N = List.replicate N true ++ [false] ∧
      ∀ cond2 : Nat → Bool, (whileTrace cond2 N).count true ≤ N := by
  constructor
  · have := whileTraceGo_allTrue cond N h (N + 1) 1 (by omega)
    simpa [whileTrace] using this
  · intro cond2
    have := whileTraceGo_count cond2 N (N + 1) 1
    simpa [whileTrace] using this

theorem while_loop_safety_witness :
    whileTrace (fun _ => true) 2 = List.replicate 2 true ++ [false] :=
  (while_loop_safety (fun _ => true) 2 (fun _ => rfl)).1

/-- **C7**: when both `nodes` and `edges` parse as arrays the endpoint
returns the normalized `{nodes, edges}` document, and when either is not an
array it returns a 500 error and no workflow document. -/
theorem response_shape (d : ParsedDoc) :
    (∀ ns es, d.nodes = some ns → d.edges = some es →
      handleWorkflowData d =
        .success (normalizeWorkflow ⟨ns, es⟩).nodes (normalizeWorkflow ⟨ns, es⟩).edges) ∧
    (d.nodes = none ∨ d.edges = none →
      handleWorkflowData d = .error 500 "Invalid workflow format: missing nodes or edges.") := by
  obtain ⟨nopt, eopt⟩ := d
  constructor
  · intro ns es hn he
    cases nopt <;> cases eopt <;> simp_all [handleWorkflowData]
  · intro h
    cases nopt <;> cases eopt <;> simp_all [handleWorkflowData]

theorem response_shape_witness :
    handleWorkflowData ⟨some [], some []⟩ = ApiResponse.success [] [] ∧
      handleWorkflowData ⟨none, some []⟩ =
        ApiResponse.error 500 "Invalid workflow format: missing nodes or edges." :=
  ⟨by
    have h := (response_shape ⟨some [], some []⟩).1 [] [] rfl rfl
    simpa using h,
   (response_shape ⟨none, some []⟩).2 (Or.inl rfl)⟩

/-- **C9**: a request whose body has no `prompt` field (JS `undefined`) or
whose `prompt` is not a string gets a 400 "Prompt is required" response,
and the Anthropic client is never called. -/
theorem prompt_required (p : JsVal) (key : Bool)
    (h : p = JsVal.vUndefined ∨ p.isString = false) :
    routeEntry p key = .badRequest 400 "Prompt is required" ∧
      routeEntry p key ≠ .callModel := by
  have hs : (p.truthy && p.isString) = false := by
    rcases h with rfl | h
    · rfl
    · simp [h]
  refine ⟨by simp [routeEntry, hs], by simp [routeEntry, hs]⟩

theorem prompt_required_witness :
    routeEntry JsVal.vNull true = .badRequest 400 "Prompt is required" :=
  (prompt_required JsVal.vNull true (Or.inr rfl)).1


/-! ## Resolver lemmas -/

theorem resolveGo_nil (ctx : ResolveCtx) : ∀ f, resolveGo ctx f [] = ([], [])
  | 0 => rfl
  | _ + 1 => rfl

theorem findCloseAux_append (l r : List Char) (hl : ∀ c ∈ l, c ≠ '}') :
    findCloseAux (l ++ '}' :: '}' :: r) = some (l, r) := by
  induction l with
  | nil => simp [findCloseAux]
  | cons c l' ih =>
    have hc : c ≠ '}' := hl c (List.mem_cons_self c l')
    have hcond : ¬ (c = '}' ∧ (l' ++ '}' :: '}' :: r).head? = some '}') := fun hx => hc hx.1
    rw [List.cons_append, findCloseAux, if_neg hcond,
      ih fun x hx => hl x (List.mem_cons_of_mem c hx)]
    rfl

/-- **C6**: `resolve` substitutes `{{input.<name>}}` with the bound value
from `ctx.inputs`; a missing name substitutes the empty string and records
a warning (the function is total, so it never throws); in particular the
two behaviours claimed for `{{input.q}}` and `{{input.missing}}` hold. -/
theorem resolver_inputs (ctx : ResolveCtx) (name : String)
    (hname : ∀ c ∈ name.data, c ≠ '}') :
    (resolve ("\x7b\x7binput." ++ name ++ "\x7d\x7d") ctx =
      match lookupInput ctx.inputs name with
      | some v => (v, [])
      | none => ("", ["Unresolved input variable: " ++ name])) ∧
    resolve "{{input.q}}" ⟨[("q", "x")], none⟩ = ("x", []) ∧
    resolve "{{input.missing}}" ⟨[], none⟩ = ("", ["Unresolved input variable: missing"]) := by
  refine ⟨?_, by decide, by decide⟩
  have hdata : ("\x7b\x7binput." ++ name ++ "\x7d\x7d").data
      = '{' :: '{' :: ("input.".data ++ name.data ++ ['}', '}']) := by
    show ("\x7b\x7binput.".data ++ name.data) ++ "\x7d\x7d".data = _
    rw [show ("\x7b\x7binput.".data : List Char) = '{' :: '{' :: "input.".data from rfl,
      show ("\x7d\x7d".data : List Char) = ['}', '}'] from rfl]
    simp
  have hfuel : ("\x7b\x7binput." ++ name ++ "\x7d\x7d").data.length = (name.data.length + 9) + 1 := by
    rw [hdata]
    simp [List.length_append, show ("input.".data : List Char).length = 6 from rfl]
  have hchars : ∀ c ∈ "input.".data ++ name.data, c ≠ '}' := by
    intro c hc
    rcases List.mem_append.1 hc with h | h
    · have hall : ∀ x ∈ ("input.".data : List Char), x ≠ '}' := by decide
      exact hall c h
    · exact hname c h
  have hassoc : "input.".data ++ name.data ++ ['}', '}']
      = ("input.".data ++ name.data) ++ '}' :: '}' :: [] := by simp
  have hne : ¬ ("input.".data ++ name.data = "lastOutput".data) := by
    intro h
    rw [show ("input.".data : List Char) = 'i' :: "nput.".data from rfl,
      show ("lastOutput".data : List Char) = 'l' :: "astOutput".data from rfl] at h
    simp only [List.cons_append, List.cons.injEq] at h
    exact absurd h.1 (by decide)
  have hdrop : ("input.".data ++ name.data).drop 6 = name.data := by
    rw [show (6 : Nat) = ("input.".data : List Char).length from rfl]
    exact List.drop_left _ _
  simp only [resolve]
  rw [hfuel, hdata, resolveGo, if_pos ⟨rfl, (rfl : ('{' :: ("input.".data ++ name.data ++ ['}', '}'])).head? = some '{')⟩]
  simp only [List.tail_cons]
  rw [hassoc, findCloseAux_append _ _ hchars]
  simp only [resolveGo_nil]
  rw [substExpr, if_neg hne, if_pos (isPrefixOf_append_self "input.".data name.data)]
  simp only [hdrop]
  cases hl : lookupInput ctx.inputs name with
  | some v => simp
  | none => simp

/-! ## Node-loop invariants -/

theorem keepId_isSome {o : Option String} (h : keepId o = true) : ∃ s, o = some s := by
  cases o with
  | none => simp [keepId, jsTruthy] at h
  | some s => exact ⟨s, rfl⟩

theorem truthy_isSome {o : Option String} (h : jsTruthy o = true) : ∃ s, o = some s := by
  cases o with
  | none => simp [jsTruthy] at h
  | some s => exact ⟨s, rfl⟩

theorem append_data_ne {s : String} (t : String) (h : s.data ≠ []) : (s ++ t).data ≠ [] := by
  rw [String.data_append]
  cases hs : s.data with
  | nil => exact absurd hs h
  | cons c cs => simp

theorem jsTruthy_append_left {s : String} (t : String) (h : s.data ≠ []) :
    jsTruthy (some (s ++ t)) = true :=
  jsTruthy_some.2 (append_data_ne t h)

theorem keepId_gen (x : String) : keepId (some ("node_" ++ x)) = true := by
  rw [keepId, Bool.and_eq_true]
  refine ⟨jsTruthy_append_left x (by decide), ?_⟩
  rw [Option.getD_some, jsStartsWith, String.data_append]
  exact isPrefixOf_append_self _ _

theorem truthy_getD {o : Option String} (h : jsTruthy o = true) :
    jsTruthy (some (o.getD "")) = true := by
  cases o with
  | none => simp [jsTruthy] at h
  | some s => simpa using h

theorem typeStr_truthy (a b : Option String) :
    jsTruthy (some ((jsOr a (jsOr b (some "agent"))).getD "")) = true :=
  truthy_getD (jsTruthy_jsOr (jsTruthy_jsOr (by decide)))

theorem jsCapitalize_truthy {s : String} (h : jsTruthy (some s) = true) :
    jsTruthy (some (jsCapitalize s)) = true := by
  rw [jsTruthy_some] at h ⊢
  have hdata : (jsCapitalize s).data = capList s.data := rfl
  rw [hdata]
  cases hs : s.data with
  | nil => exact absurd hs h
  | cons c cs => simp [capList]

theorem contains_iff {l : List String} {x : String} : l.contains x = true ↔ x ∈ l := by
  simp [List.contains_iff_exists_mem_beq]

/-- A node already in the route's output format: id kept by the regeneration
test, position present, truthy type, and data with truthy `nodeType`,
`nodeName`, `label`. -/
def NormalNode (n : RawNode) : Prop :=
  keepId n.id = true ∧ n.position.isSome = true ∧ jsTruthy n.type = true ∧
    ∃ d, n.data = some d ∧ jsTruthy d.nodeType = true ∧
      jsTruthy d.nodeName = true ∧ jsTruthy d.label = true

theorem processNode_id_keep {st : NormState} {i : Nat} {n : RawNode}
    (hk : keepId n.id = true) : (processNode st i n).1.id = n.id := by
  obtain ⟨s, hs⟩ := keepId_isSome hk
  rw [hs] at hk ⊢
  simp [processNode, hs, hk]

theorem processNode_id_gen {st : NormState} {i : Nat} {n : RawNode}
    (hk : keepId n.id = false) :
    (processNode st i n).1.id = some ("node_" ++ intToDec st.counter) := by
  simp [processNode, hk]

theorem processNode_type (st : NormState) (i : Nat) (n : RawNode) :
    (processNode st i n).1.type
      = some ((jsOr n.type (jsOr (n.data.bind NodeData.nodeType) (some "agent"))).getD "") :=
  rfl

theorem processNode_data (st : NormState) (i : Nat) (n : RawNode) :
    (processNode st i n).1.data = some
      { nodeType := jsOr (n.data.bind NodeData.nodeType)
          (some ((jsOr n.type (jsOr (n.data.bind NodeData.nodeType) (some "agent"))).getD ""))
        nodeName := jsOr (n.data.bind NodeData.nodeName) (jsOr (n.data.bind NodeData.name)
          (some (jsCapitalize ((jsOr n.type (jsOr (n.data.bind NodeData.nodeType)
            (some "agent"))).getD ""))))
        name := n.data.bind NodeData.name
        label := jsOr (n.data.bind NodeData.label) (jsOr (n.data.bind NodeData.nodeName)
          (jsOr (n.data.bind NodeData.name)
            (some (jsCapitalize ((jsOr n.type (jsOr (n.data.bind NodeData.nodeType)
              (some "agent"))).getD "")))))
        extra := (n.data.map NodeData.extra).getD [] } :=
  rfl

theorem processNode_extra (st : NormState) (i : Nat) (n : RawNode) :
    (processNode st i n).1.extra = n.extra :=
  rfl

theorem processNode_position_isSome (st : NormState) (i : Nat) (n : RawNode) :
    (processNode st i n).1.position.isSome = true := by
  have : (processNode st i n).1.position
      = match n.position with
        | some p => some p
        | none => some ((250 + 300 * (i : Int), 250) : Int × Int) := rfl
  rw [this]
  cases n.position <;> simp

theorem processNode_normal (st : NormState) (i : Nat) (n : RawNode) :
    NormalNode (processNode st i n).1 := by
  refine ⟨?_, processNode_position_isSome st i n, ?_, ?_⟩
  · by_cases hk : keepId n.id = true
    · obtain ⟨s, hs⟩ := keepId_isSome hk
      rw [processNode_id_keep hk, hs]
      rw [hs] at hk
      exact hk
    · rw [processNode_id_gen (Bool.not_eq_true _ ▸ hk)]
      exact keepId_gen _
  · rw [processNode_type]
    exact typeStr_truthy _ _
  · rw [processNode_data]
    refine ⟨_, rfl, ?_, ?_, ?_⟩
    · exact jsTruthy_jsOr (typeStr_truthy _ _)
    · exact jsTruthy_jsOr (jsTruthy_jsOr (jsCapitalize_truthy (typeStr_truthy _ _)))
    · exact jsTruthy_jsOr (jsTruthy_jsOr (jsTruthy_jsOr (jsCapitalize_truthy (typeStr_truthy _ _))))

theorem processNodesGo_normal (ns : List RawNode) :
    ∀ (st : NormState) (i : Nat), ∀ n' ∈ (processNodesGo st i ns).1, NormalNode n' := by
  induction ns with
  | nil => intro st i n' h; simp [processNodesGo] at h
  | cons n ns ih =>
    intro st i n' h
    simp only [processNodesGo] at h
    rcases List.mem_cons.1 h with rfl | h'
    · exact processNode_normal _ _ _
    · exact ih _ _ _ h'

theorem mem_validNodeIds {ns : List RawNode} {s : String} (h : s ∈ validNodeIds ns)
    (hn : ∀ n ∈ ns, NormalNode n) : ∃ n ∈ ns, n.id = some s := by
  obtain ⟨n, hmem, hid⟩ := List.mem_map.1 h
  obtain ⟨s', hs'⟩ := keepId_isSome (hn n hmem).1
  refine ⟨n, hmem, ?_⟩
  rw [hs'] at hid ⊢
  rw [Option.getD_some] at hid
  rw [hid]

/-! ## Edge-loop characterization -/

theorem processEdge_eq_some {m : String → Option String} {ids : List String} {e0 e : RawEdge}
    (h : processEdge m ids e0 = some e) :
    e.source = some (remapId m (e0.source.getD "")) ∧
    e.target = some (remapId m (e0.target.getD "")) ∧
    remapId m (e0.source.getD "") ∈ ids ∧
    remapId m (e0.target.getD "") ∈ ids ∧
    jsTruthy e.id = true ∧
    (e.label = none ∨ jsTruthy e.label = true) ∧
    (e.sourceHandle = none ∨ jsTruthy e.sourceHandle = true) ∧
    (e.targetHandle = none ∨ jsTruthy e.targetHandle = true) ∧
    e.extra = [] := by
  rw [processEdge] at h
  by_cases h1 : (!(jsTruthy e0.source && jsTruthy e0.target)) = true
  · rw [if_pos h1] at h; cases h
  rw [if_neg h1] at h
  by_cases h2 : (!(ids.contains (remapId m (e0.source.getD "")))) = true
  · rw [if_pos h2] at h; cases h
  rw [if_neg h2] at h
  by_cases h3 : (!(ids.contains (remapId m (e0.target.getD "")))) = true
  · rw [if_pos h3] at h; cases h
  rw [if_neg h3] at h
  obtain rfl := Option.some_inj.1 h.symm
  have h2' : remapId m (e0.source.getD "") ∈ ids := contains_iff.1 (by simpa using h2)
  have h3' : remapId m (e0.target.getD "") ∈ ids := contains_iff.1 (by simpa using h3)
  refine ⟨rfl, rfl, h2', h3', ?_, ?_, ?_, ?_, rfl⟩
  · exact jsTruthy_jsOr (jsTruthy_append_left _ (append_data_ne _ (append_data_ne _ (by decide))))
  · cases hb : jsTruthy e0.label with
    | true => exact Or.inr (by simp [hb])
    | false => exact Or.inl (by simp [hb])
  · cases hb : jsTruthy e0.sourceHandle with
    | true => exact Or.inr (by simp [hb])
    | false => exact Or.inl (by simp [hb])
  · cases hb : jsTruthy e0.targetHandle with
    | true => exact Or.inr (by simp [hb])
    | false => exact Or.inl (by simp [hb])

theorem processEdge_none_of_bad {m : String → Option String} {ids : List String} {e0 : RawEdge}
    (h : remapId m (e0.source.getD "") ∉ ids ∨ remapId m (e0.target.getD "") ∉ ids) :
    processEdge m ids e0 = none := by
  rw [processEdge]
  by_cases h1 : (!(jsTruthy e0.source && jsTruthy e0.target)) = true
  · rw [if_pos h1]
  rw [if_neg h1]
  by_cases h2 : (!(ids.contains (remapId m (e0.source.getD "")))) = true
  · rw [if_pos h2]
  rw [if_neg h2]
  by_cases h3 : (!(ids.contains (remapId m (e0.target.getD "")))) = true
  · rw [if_pos h3]
  exfalso
  rcases h with h | h
  · exact h (contains_iff.1 (by simpa using h2))
  · exact h (contains_iff.1 (by simpa using h3))

/-! ## Claim theorems: edge endpoints (C1) and node defaults (C8) -/

/-- **C1**: every edge returned by the normalization pass has a source and a
target equal to the id of some returned node; an input edge whose remapped
source or target matches no processed node id is dropped (the edge callback
yields `null`, removed by the filter). -/
theorem edges_reference_nodes (w : Workflow) :
    (∀ e ∈ (normalizeWorkflow w).edges,
      (∃ n ∈ (normalizeWorkflow w).nodes, n.id = e.source) ∧
        ∃ n ∈ (normalizeWorkflow w).nodes, n.id = e.target) ∧
    (∀ e ∈ w.edges,
      (remapId (nodeIdMapOf w) (e.source.getD "") ∉ processedIdsOf w ∨
        remapId (nodeIdMapOf w) (e.target.getD "") ∉ processedIdsOf w) →
      processEdge (nodeIdMapOf w) (processedIdsOf w) e = none) := by
  constructor
  · intro e he
    simp only [normalizeWorkflow] at he ⊢
    obtain ⟨e0, _, hpe⟩ := List.mem_filterMap.1 he
    obtain ⟨hsrc, htgt, hs_mem, ht_mem, _⟩ := processEdge_eq_some hpe
    have hnorm : ∀ n ∈ processedNodesOf w, NormalNode n :=
      processNodesGo_normal w.nodes initState 0
    constructor
    · obtain ⟨n, hn, hid⟩ := mem_validNodeIds hs_mem hnorm
      exact ⟨n, hn, by rw [hid, hsrc]⟩
    · obtain ⟨n, hn, hid⟩ := mem_validNodeIds ht_mem hnorm
      exact ⟨n, hn, by rw [hid, htgt]⟩
  · intro e _ hbad
    exact processEdge_none_of_bad hbad

def exampleNode1 : RawNode :=
  { id := some "node_1", type := some "start", position := some (1, 2), data := none, extra := [] }

def exampleEdgeOk : RawEdge :=
  { id := none, source := some "node_1", target := some "node_1",
    label := none, sourceHandle := none, targetHandle := none, extra := [] }

def exampleEdgeBad : RawEdge :=
  { id := none, source := some "zzz", target := some "node_1",
    label := none, sourceHandle := none, targetHandle := none, extra := [] }

def exampleW : Workflow :=
  { nodes := [exampleNode1], edges := [exampleEdgeOk, exampleEdgeBad] }

theorem edges_reference_nodes_witness :
    ((∃ n ∈ (normalizeWorkflow exampleW).nodes,
        n.id = (⟨some "edge-node_1-node_1", some "node_1", some "node_1",
          none, none, none, []⟩ : RawEdge).source)) ∧
      processEdge (nodeIdMapOf exampleW) (processedIdsOf exampleW) exampleEdgeBad = none :=
  ⟨((edges_reference_nodes exampleW).1
      ⟨some "edge-node_1-node_1", some "node_1", some "node_1", none, none, none, []⟩
      (by decide)).1,
   (edges_reference_nodes exampleW).2 exampleEdgeBad (by decide) (Or.inl (by decide))⟩

theorem processNode_c8 (st : NormState) (i : Nat) (n : RawNode) :
    (processNode st i n).1.type.isSome = true ∧
    ∃ d', (processNode st i n).1.data = some d' ∧
      jsTruthy d'.nodeType = true ∧ jsTruthy d'.nodeName = true ∧ jsTruthy d'.label = true ∧
      d'.name = n.data.bind NodeData.name ∧
      d'.extra = (n.data.map NodeData.extra).getD [] := by
  refine ⟨by rw [processNode_type]; rfl, ?_⟩
  rw [processNode_data]
  exact ⟨_, rfl, jsTruthy_jsOr (typeStr_truthy _ _),
    jsTruthy_jsOr (jsTruthy_jsOr (jsCapitalize_truthy (typeStr_truthy _ _))),
    jsTruthy_jsOr (jsTruthy_jsOr (jsTruthy_jsOr (jsCapitalize_truthy (typeStr_truthy _ _)))),
    rfl, rfl⟩

theorem processNodesGo_c8 (ns : List RawNode) :
    ∀ (st : NormState) (i : Nat),
      List.Forall₂ (fun n' n =>
        n'.type.isSome = true ∧
        ∃ d', n'.data = some d' ∧
          jsTruthy d'.nodeType = true ∧ jsTruthy d'.nodeName = true ∧ jsTruthy d'.label = true ∧
          d'.name = n.data.bind NodeData.name ∧
          d'.extra = (n.data.map NodeData.extra).getD [])
        (processNodesGo st i ns).1 ns := by
  induction ns with
  | nil => intro st i; simp [processNodesGo]
  | cons n ns ih =>
    intro st i
    simp only [processNodesGo]
    exact List.Forall₂.cons (processNode_c8 st i n) (ih _ _)

/-- **C8**: every node returned by the normalization has a defined `type`
and a `data` object whose `nodeType`, `nodeName` and `label` are defined
non-empty (truthy) strings, even when the input node omits `data` or any of
these fields; the input's `data.name` and all other pre-existing `data`
fields are preserved unchanged. -/
theorem node_defaults_preserved (w : Workflow) :
    List.Forall₂ (fun n' n =>
      n'.type.isSome = true ∧
      ∃ d', n'.data = some d' ∧
        jsTruthy d'.nodeType = true ∧ jsTruthy d'.nodeName = true ∧ jsTruthy d'.label = true ∧
        d'.name = n.data.bind NodeData.name ∧
        d'.extra = (n.data.map NodeData.extra).getD [])
      (processedNodesOf w) w.nodes :=
  processNodesGo_c8 w.nodes initState 0

theorem resolver_inputs_witness :
    resolve "{{input.q}}" ⟨[("q", "x")], none⟩ = ("x", []) :=
  (resolver_inputs ⟨[("q", "x")], none⟩ "q" (by decide)).2.1

/-! ## Injectivity of the generated node ids -/

/-- Value of a least-significant-first digit list. -/
def lsbVal : List Nat → Nat
  | [] => 0
  | d :: ds => d + 10 * lsbVal ds

theorem lsbVal_decDigitsRev : ∀ (f n : Nat), n < f → lsbVal (decDigitsRev f n) = n := by
  intro f
  induction f with
  | zero => intro n h; exact absurd h (Nat.not_lt_zero n)
  | succ f ih =>
    intro n h
    rw [decDigitsRev]
    by_cases h10 : n / 10 = 0
    · simp only [if_pos h10, lsbVal]
      omega
    · rw [if_neg h10]
      simp only [lsbVal]
      rw [ih (n / 10) (by omega)]
      omega

theorem decDigitsRev_lt : ∀ (f n : Nat), ∀ d ∈ decDigitsRev f n, d < 10 := by
  intro f
  induction f with
  | zero => intro n d h; simp [decDigitsRev] at h
  | succ f ih =>
    intro n d h
    rw [decDigitsRev] at h
    rcases List.mem_cons.1 h with rfl | h'
    · omega
    · by_cases h10 : n / 10 = 0
      · rw [if_pos h10] at h'
        simp at h'
      · rw [if_neg h10] at h'
        exact ih (n / 10) d h'

theorem digitChar_inj : ∀ a, a < 10 → ∀ b, b < 10 → Nat.digitChar a = Nat.digitChar b → a = b := by
  decide

theorem map_digitChar_inj : ∀ (l₁ l₂ : List Nat), (∀ d ∈ l₁, d < 10) → (∀ d ∈ l₂, d < 10) →
    l₁.map Nat.digitChar = l₂.map Nat.digitChar → l₁ = l₂
  | [], [] => by simp
  | [], _ :: _ => by simp
  | _ :: _, [] => by simp
  | a :: as, b :: bs => by
    intro h1 h2 h
    simp only [List.map_cons, List.cons.injEq] at h
    have ha := digitChar_inj a (h1 a (List.mem_cons_self a as)) b (h2 b (List.mem_cons_self b bs)) h.1
    have htl := map_digitChar_inj as bs (fun d hd => h1 d (List.mem_cons_of_mem a hd))
      (fun d hd => h2 d (List.mem_cons_of_mem b hd)) h.2
    rw [ha, htl]

theorem natToDec_inj {a b : Nat} (h : natToDec a = natToDec b) : a = b := by
  have hdata : ((decDigitsRev (a + 1) a).map Nat.digitChar).reverse
      = ((decDigitsRev (b + 1) b).map Nat.digitChar).reverse := congrArg String.data h
  have h2 := List.reverse_injective hdata
  have h3 := map_digitChar_inj _ _ (decDigitsRev_lt (a + 1) a) (decDigitsRev_lt (b + 1) b) h2
  have va := lsbVal_decDigitsRev (a + 1) a (by omega)
  have vb := lsbVal_decDigitsRev (b + 1) b (by omega)
  rw [← va, ← vb, h3]

theorem intToDec_inj {i j : Int} (hi : 0 ≤ i) (hj : 0 ≤ j) (h : intToDec i = intToDec j) :
    i = j := by
  rw [intToDec, intToDec, if_neg (by omega), if_neg (by omega)] at h
  have := natToDec_inj h
  omega

theorem genId_inj {i j : Int} (hi : 0 ≤ i) (hj : 0 ≤ j)
    (h : "node_" ++ intToDec i = "node_" ++ intToDec j) : i = j := by
  refine intToDec_inj hi hj (String.ext ?_)
  have hd := congrArg String.data h
  rw [String.data_append, String.data_append] at hd
  exact List.append_cancel_left hd

/-! ## Output node ids under pure regeneration and pure keeping -/

theorem processNode_counter_gen {st : NormState} {i : Nat} {n : RawNode}
    (hk : keepId n.id = false) :
    (processNode st i n).2.counter = st.counter + 1 := by
  simp [processNode, hk]

theorem processNodesGo_ids_allGen (ns : List RawNode) (h : ∀ n ∈ ns, keepId n.id = false) :
    ∀ (st : NormState) (i : Nat),
      ((processNodesGo st i ns).1).map RawNode.id
        = (List.range ns.length).map
            (fun j : Nat => some ("node_" ++ intToDec (st.counter + (j : Int)))) := by
  induction ns with
  | nil => intro st i; simp [processNodesGo]
  | cons n ns ih =>
    intro st i
    have hk := h n (List.mem_cons_self n ns)
    simp only [processNodesGo, List.map_cons]
    rw [processNode_id_gen hk, ih (fun x hx => h x (List.mem_cons_of_mem n hx)) _ _,
      processNode_counter_gen hk, List.length_cons, List.range_succ_eq_map]
    rw [List.map_cons, List.map_map]
    refine congrArg₂ List.cons ?_ ?_
    · rw [show ((0 : Nat) : Int) = 0 from rfl, add_zero]
    · refine List.map_congr_left fun j _ => ?_
      simp only [Function.comp_apply]
      have harith : st.counter + 1 + (j : Int) = st.counter + ((j + 1 : Nat) : Int) := by
        push_cast
        ring
      rw [harith]

theorem processNodesGo_ids_allKept (ns : List RawNode) (h : ∀ n ∈ ns, keepId n.id = true) :
    ∀ (st : NormState) (i : Nat),
      ((processNodesGo st i ns).1).map RawNode.id = ns.map RawNode.id := by
  induction ns with
  | nil => intro st i; simp [processNodesGo]
  | cons n ns ih =>
    intro st i
    simp only [processNodesGo, List.map_cons]
    rw [processNode_id_keep (h n (List.mem_cons_self n ns)),
      ih (fun x hx => h x (List.mem_cons_of_mem n hx)) _ _]

/-- **C2 counterexample**: the input nodes have the two distinct ids `"a"`
and `"node_1"`, yet the normalization returns two nodes both with id
`"node_1"` (the regenerated id collides with a kept id that appears later),
so the returned node ids are not pairwise distinct. -/
theorem node_ids_distinct_cex :
    ¬ ((processedNodesOf
      { nodes := [{ id := some "a", type := none, position := none, data := none, extra := [] },
                  { id := some "node_1", type := none, position := none, data := none,
                    extra := [] }],
        edges := [] }).map RawNode.id).Nodup := by
  decide

/-- **C2 amended**: the returned node ids are pairwise distinct provided
either every input id is regenerated (absent, empty, or not starting with
`node_`), or every input id is kept (truthy and starting with `node_`) and
the input ids are already pairwise distinct.  In general (mixing kept and
regenerated ids, or duplicate kept ids) the output can contain duplicate
ids, as the counterexample shows. -/
theorem node_ids_distinct_amended (w : Workflow)
    (h : (∀ n ∈ w.nodes, keepId n.id = false) ∨
      ((∀ n ∈ w.nodes, keepId n.id = true) ∧ (w.nodes.map RawNode.id).Nodup)) :
    ((processedNodesOf w).map RawNode.id).Nodup := by
  rcases h with h | ⟨h, hnd⟩
  · rw [processedNodesOf, processNodesGo_ids_allGen w.nodes h initState 0]
    have hinj : Function.Injective
        (fun j : Nat => some ("node_" ++ intToDec (initState.counter + (j : Int)))) := by
      intro j₁ j₂ hj
      have h1 : (0 : Int) ≤ initState.counter + (j₁ : Int) := by
        simp only [initState]
        omega
      have h2 : (0 : Int) ≤ initState.counter + (j₂ : Int) := by
        simp only [initState]
        omega
      have := genId_inj h1 h2 (Option.some_inj.1 hj)
      omega
    exact (List.nodup_range _).map hinj
  · rw [processedNodesOf, processNodesGo_ids_allKept w.nodes h initState 0]
    exact hnd

theorem node_ids_distinct_amended_witness :
    ((processedNodesOf
      { nodes := [{ id := none, type := none, position := none, data := none, extra := [] },
                  { id := some "x", type := none, position := none, data := none, extra := [] }],
        edges := [] }).map RawNode.id).Nodup :=
  node_ids_distinct_amended _ (Or.inl (by decide))

/-! ## Agreement between the two normalization passes (C10) -/

/-- The node components on which the two passes agree: id, type, position,
`data.nodeType`, `data.nodeName`, and the node's other top-level fields. -/
def nodeCore (n : RawNode) :
    Option String × Option String × Option (Int × Int) × Option String × Option String ×
      List (String × String) :=
  (n.id, n.type, n.position, n.data.bind NodeData.nodeType, n.data.bind NodeData.nodeName,
    n.extra)

theorem processNode2_core (st : NormState) (i : Nat) (n : RawNode) :
    nodeCore (processNode2 st.counter i n).1 = nodeCore (processNode st i n).1 ∧
      (processNode2 st.counter i n).2 = (processNode st i n).2.counter := by
  by_cases hk : keepId n.id = true <;>
    cases hp : parseKeptIdNum (n.id.getD "") <;>
      simp [processNode, processNode2, nodeCore, hk, hp]

theorem processNodes2Go_core (ns : List RawNode) :
    ∀ (st : NormState) (i : Nat),
      (processNodes2Go st.counter i ns).1.map nodeCore
          = (processNodesGo st i ns).1.map nodeCore ∧
        (processNodes2Go st.counter i ns).2 = (processNodesGo st i ns).2.counter := by
  induction ns with
  | nil => intro st i; simp [processNodes2Go, processNodesGo]
  | cons n ns ih =>
    intro st i
    obtain ⟨hcore, hcnt⟩ := processNode2_core st i n
    simp only [processNodes2Go, processNodesGo, List.map_cons]
    constructor
    · refine congrArg₂ List.cons hcore ?_
      rw [hcnt]
      exact (ih ((processNode st i n).2) (i + 1)).1
    · rw [hcnt]
      exact (ih ((processNode st i n).2) (i + 1)).2

/-- **C10 counterexample**: on the single-node document with no id, type,
position or data, the `part_001` pass returns a node whose `data` has no
`label` (and drops all other data fields), while the `route.ts` pass
returns `label := "Agent"`; the two outputs differ, so the passes are not
equivalent. -/
theorem normalization_equiv_cex :
    normalizeWorkflow2
        { nodes := [{ id := none, type := none, position := none, data := none, extra := [] }],
          edges := [] }
      ≠ Except.ok (normalizeWorkflow
        { nodes := [{ id := none, type := none, position := none, data := none, extra := [] }],
          edges := [] }) := by
  decide

/-- **C10 amended**: the two passes agree on node ids, types, positions,
`data.nodeType`, `data.nodeName` and the nodes' other top-level fields
(pointwise, same length); they are not equivalent on full node data (the
`part_001` pass drops `label`, `name` and the other data fields) nor on
edges (it neither remaps nor filters them, and throws on an edge with a
missing endpoint). -/
theorem normalization_core_agree (w : Workflow) :
    (processedNodes2Of w).map nodeCore = (processedNodesOf w).map nodeCore :=
  (processNodes2Go_core w.nodes initState 0).1

/-! ## Idempotence of the normalization pass (C3) -/

theorem processNode_fix_node (st : NormState) (i : Nat) {n : RawNode} (h : NormalNode n) :
    (processNode st i n).1 = n := by
  obtain ⟨hk, hpos, htype, d, hd, h1, h2, h3⟩ := h
  obtain ⟨p, hp⟩ := Option.isSome_iff_exists.1 hpos
  obtain ⟨t, ht⟩ := truthy_isSome htype
  obtain ⟨s, hs⟩ := keepId_isSome hk
  obtain ⟨nid, ntype, npos, ndata, nextra⟩ := n
  simp only at hd hp ht hs
  subst hd hp ht hs
  obtain ⟨dt, dn, dm, dl, de⟩ := d
  simp only at h1 h2 h3 htype hk
  simp [processNode, hk, jsOr_of_truthy, htype, h1, h2, h3]

theorem processNode_fix_map (st : NormState) (i : Nat) {n : RawNode}
    (hk : keepId n.id = true) :
    (processNode st i n).2.idMap = st.idMap := by
  cases hp : parseKeptIdNum (n.id.getD "") <;> simp [processNode, hk, hp]

theorem processNodesGo_fix (ns : List RawNode) (h : ∀ n ∈ ns, NormalNode n) :
    ∀ (st : NormState) (i : Nat),
      (processNodesGo st i ns).1 = ns ∧ (processNodesGo st i ns).2.idMap = st.idMap := by
  induction ns with
  | nil => intro st i; exact ⟨rfl, rfl⟩
  | cons n ns ih =>
    intro st i
    have hn := h n (List.mem_cons_self n ns)
    have ih' := ih (fun x hx => h x (List.mem_cons_of_mem n hx)) ((processNode st i n).2) (i + 1)
    simp only [processNodesGo]
    exact ⟨by rw [processNode_fix_node st i hn, ih'.1],
      by rw [ih'.2, processNode_fix_map st i hn.1]⟩

theorem filterMap_id_of {α : Type} (l : List α) (f : α → Option α)
    (h : ∀ e ∈ l, f e = some e) : l.filterMap f = l := by
  induction l with
  | nil => rfl
  | cons a l ih =>
    simp [List.filterMap_cons, h a (List.mem_cons_self a l),
      ih fun x hx => h x (List.mem_cons_of_mem a hx)]

theorem processedIds_truthy (w : Workflow) :
    ∀ s ∈ processedIdsOf w, jsTruthy (some s) = true := by
  intro s hs
  obtain ⟨n, hn, hid⟩ := mem_validNodeIds hs (processNodesGo_normal w.nodes initState 0)
  have hk := (processNodesGo_normal w.nodes initState 0 n hn).1
  rw [keepId, Bool.and_eq_true, hid] at hk
  exact hk.1

theorem processEdge_fix {ids : List String} {e : RawEdge} {s t : String}
    (hs : e.source = some s) (hsm : s ∈ ids) (hst : jsTruthy (some s) = true)
    (ht : e.target = some t) (htm : t ∈ ids) (htt : jsTruthy (some t) = true)
    (hid : jsTruthy e.id = true)
    (hlab : e.label = none ∨ jsTruthy e.label = true)
    (hsh : e.sourceHandle = none ∨ jsTruthy e.sourceHandle = true)
    (hth : e.targetHandle = none ∨ jsTruthy e.targetHandle = true)
    (hex : e.extra = []) :
    processEdge (fun _ => none) ids e = some e := by
  obtain ⟨eid, esrc, etgt, elb, eshv, ethv, eex⟩ := e
  simp only at hs ht hex hid hlab hsh hth ⊢
  subst hs ht hex
  rw [processEdge]
  rw [if_neg (by simp [hst, htt])]
  have hrs : remapId (fun _ => none) ((some s).getD "") = s := by
    simp [remapId, jsOr, jsTruthy]
  have hrt : remapId (fun _ => none) ((some t).getD "") = t := by
    simp [remapId, jsOr, jsTruthy]
  simp only [hrs, hrt]
  rw [if_neg (by simp [hsm]), if_neg (by simp [htm])]
  refine congrArg some ?_
  have hidq : jsOr eid (some ("edge-" ++ s ++ "-" ++ t)) = eid := jsOr_of_truthy _ hid
  simp only [RawEdge.mk.injEq]
  refine ⟨hidq, trivial, trivial, ?_, ?_, ?_, trivial⟩
  · rcases hlab with rfl | hl
    · simp [jsTruthy]
    · simp [hl]
  · rcases hsh with rfl | hh
    · simp [jsTruthy]
    · simp [hh]
  · rcases hth with rfl | hh2
    · simp [jsTruthy]
    · simp [hh2]

/-- **C3**: the normalization pass of the prompt-workflow endpoint is
idempotent: applied to its own output it returns the same nodes (same ids,
positions, types and data) and the same edges. -/
theorem normalize_idempotent (w : Workflow) :
    normalizeWorkflow (normalizeWorkflow w) = normalizeWorkflow w := by
  have hnorm : ∀ n ∈ processedNodesOf w, NormalNode n :=
    processNodesGo_normal w.nodes initState 0
  have hfix := processNodesGo_fix (processedNodesOf w) hnorm initState 0
  have hnodes2 : processedNodesOf (normalizeWorkflow w) = processedNodesOf w := hfix.1
  have hmap2 : nodeIdMapOf (normalizeWorkflow w) = initState.idMap := hfix.2
  have hids2 : processedIdsOf (normalizeWorkflow w) = processedIdsOf w := by
    simp only [processedIdsOf]
    rw [hnodes2]
  have hedges : (normalizeWorkflow w).edges.filterMap
      (processEdge (nodeIdMapOf (normalizeWorkflow w)) (processedIdsOf (normalizeWorkflow w)))
      = (normalizeWorkflow w).edges := by
    rw [hmap2, hids2]
    apply filterMap_id_of
    intro e he
    simp only [normalizeWorkflow] at he
    obtain ⟨e0, _, hpe⟩ := List.mem_filterMap.1 he
    obtain ⟨hsrc, htgt, hsm, htm, hid, hlab, hsh, hth, hex⟩ := processEdge_eq_some hpe
    exact processEdge_fix hsrc hsm (processedIds_truthy w _ hsm)
      htgt htm (processedIds_truthy w _ htm) hid hlab hsh hth hex
  conv_lhs => rw [normalizeWorkflow]
  rw [hnodes2, hedges]
  simp only [normalizeWorkflow]

/-! ## Validator claims (C4) -/

def exampleGraphUnreachable : Graph :=
  { nodes := [{ id := "s", kind := .start, maxIterations := none },
              { id := "e1", kind := .endNode, maxIterations := none },
              { id := "e2", kind := .endNode, maxIterations := none }],
    edges := [{ id := "e", source := "s", target := "e1", label := none }] }

def exampleGraphGood : Graph :=
  { nodes := [{ id := "s", kind := .start, maxIterations := none },
              { id := "e1", kind := .endNode, maxIterations := none }],
    edges := [{ id := "e", source := "s", target := "e1", label := none }] }

/-- **C4 counterexample**: a graph with exactly one start node, end nodes,
resolvable edges and no cycle at all (so every cycle vacuously passes
through a `while` node) on which `validate` still rejects, because the node
`e2` is unreachable from the start node — the claimed four conditions are
not sufficient for acceptance. -/
theorem validate_four_conditions_cex :
    (UniqueStart exampleGraphUnreachable ∧ HasEnd exampleGraphUnreachable ∧
      EdgesResolve exampleGraphUnreachable ∧ CyclesThroughWhile exampleGraphUnreachable) ∧
      validate exampleGraphUnreachable ≠ ValidateResult.ok := by
  decide

/-- **C4 amended**: `validate` accepts iff exactly one `start` node, at
least one `end` node, every edge endpoint resolves, every node is reachable
from the start node, every cycle passes through a `while` node, every
`if-else` node has exactly two outgoing edges with distinct labels, and
every `while` node has exactly two outgoing edges and a positive
`maxIterations`; on any other graph it returns a `ValidationError` and
execution never starts. -/
theorem validate_ok_iff (g : Graph) :
    validate g = ValidateResult.ok ↔
      UniqueStart g ∧ HasEnd g ∧ EdgesResolve g ∧ AllReachable g ∧ CyclesThroughWhile g ∧
        IfElseOK g ∧ WhileOK g := by
  unfold validate
  split_ifs with h1 h2 h3 h4 h5 h6 h7 <;> simp_all

theorem validate_ok_iff_witness :
    validate exampleGraphGood = ValidateResult.ok :=
  (validate_ok_iff exampleGraphGood).2 (by decide)

end OAB
